import Mathlib

/-!
Verification of the EGA planar conversion tool (egaify.cpp) of the
WolfensteinEGA repository.

The tool quantizes each RGB pixel of a decoded RGBA image to the nearest of
the 16 standard IBM EGA palette entries (squared Euclidean distance, first
minimum wins), then packs the resulting 4-bit index buffer into four 1-bit
planes (8 pixels per byte, most-significant bit is the leftmost pixel) and
writes plane 0, plane 1, plane 2, plane 3 concatenated to the output file.

The imperative C code is embedded shallowly: the planar output buffer
(`malloc` + `memset(0)` + `|=` writes) is modelled as a function from byte
addresses to byte values, buffer writes as pointwise function update, and the
nested pixel loops as left folds over `List.range`.  The `main` driver with
its external effects (argument count, file load, PNG decode, `fopen`,
`fwrite`) is modelled as a pure function of an environment that records the
outcome of each external call; `fwrite` may deliver fewer bytes than
requested, which the C code does not check.
-/

/-- The 16-entry IBM EGA palette, `ega_palette` in the source: RGB triples. -/
def ega_palette : List (Nat × Nat × Nat) :=
  [(0x00, 0x00, 0x00), (0x00, 0x00, 0xAA), (0x00, 0xAA, 0x00), (0x00, 0xAA, 0xAA),
   (0xAA, 0x00, 0x00), (0xAA, 0x00, 0xAA), (0xAA, 0x55, 0x00), (0xAA, 0xAA, 0xAA),
   (0x55, 0x55, 0x55), (0x55, 0x55, 0xFF), (0x55, 0xFF, 0x55), (0x55, 0xFF, 0xFF),
   (0xFF, 0x55, 0x55), (0xFF, 0x55, 0xFF), (0xFF, 0xFF, 0x55), (0xFF, 0xFF, 0xFF)]

/-- `colour_distance`: squared Euclidean distance between two RGB colours.
The C code computes the differences in `int` and the sum of squares is cast
to `uint32_t`; for 8-bit components no overflow occurs, so the value is the
exact mathematical one. -/
def colour_distance (a b : Nat × Nat × Nat) : Nat :=
  let dr : Int := (a.1 : Int) - (b.1 : Int)
  let dg : Int := (a.2.1 : Int) - (b.2.1 : Int)
  let db : Int := (a.2.2 : Int) - (b.2.2 : Int)
  (dr * dr + dg * dg + db * db).toNat

/-- `map_to_ega`: linear scan over the 16 palette entries keeping the first
index whose distance is strictly below the running best (initially
`0xffffffff`). -/
def map_to_ega (r g b : Nat) : Nat :=
  ((List.range 16).foldl
    (fun st i =>
      let dist := colour_distance (r, g, b) (ega_palette.getD i (0, 0, 0))
      if dist < st.2 then (i, dist) else st)
    (0, 4294967295)).1

/-- Pointwise update of the byte-addressed planar buffer (a `|=` store). -/
def bufSet (buf : Nat → Nat) (i v : Nat) : Nat → Nat :=
  fun j => if j = i then v else buf j

/-- One iteration of the plane loop of `convert_to_planar`: if bit `plane` of
`pixel_index` is set, OR bit `bit` into byte `plane * plane_size +
byte_offset`. -/
def planeStep (plane_size pixel_index bit byte_offset : Nat)
    (buf : Nat → Nat) (plane : Nat) : Nat → Nat :=
  if (pixel_index >>> plane) % 2 = 1 then
    bufSet buf (plane * plane_size + byte_offset)
      (buf (plane * plane_size + byte_offset) ||| (1 <<< bit))
  else buf

/-- The inner plane loop of `convert_to_planar`, over planes 0..3. -/
def setPixelBits (plane_size pixel_index bit byte_offset : Nat)
    (buf : Nat → Nat) : Nat → Nat :=
  (List.range 4).foldl (planeStep plane_size pixel_index bit byte_offset) buf

/-- The planar buffer after the double pixel loop of `convert_to_planar`, starting
from the zeroed (`memset`) buffer.  Pixel `(y, x)` contributes its masked
index `indices[y*width+x] & 0x0F` at bit `7 - (x & 7)` of byte offset
`(y*width+x) / 8` of each plane. -/
def planarBuf (indices : List Nat) (width height : Nat) : Nat → Nat :=
  let plane_size := width * height / 8
  (List.range height).foldl
    (fun buf y =>
      (List.range width).foldl
        (fun buf x =>
          setPixelBits plane_size (indices.getD (y * width + x) 0 % 16)
            (7 - x % 8) ((y * width + x) / 8) buf)
        buf)
    (fun _ => 0)

/-- `convert_to_planar`: the `plane_size * 4` bytes of the planar buffer, in
address order, exactly the bytes `main` hands to `fwrite`. -/
def convert_to_planar (indices : List Nat) (width height : Nat) : List Nat :=
  (List.range (width * height / 8 * 4)).map (planarBuf indices width height)

/-- The quantization loop of `main`: `indices[y*width+x] =
map_to_ega(image[4*n], image[4*n+1], image[4*n+2])` for `n = y*width+x`,
row-major. -/
def quantize (image : List Nat) (width height : Nat) : List Nat :=
  (List.range (width * height)).map fun n =>
    map_to_ega (image.getD (4 * n) 0) (image.getD (4 * n + 1) 0)
      (image.getD (4 * n + 2) 0)

/-- Outcomes of the external calls `main` performs, recorded as data:
the argument count, the result of `lodepng::load_file`, the result of
`lodepng::decode` (width, height, RGBA bytes), whether `fopen` of the output
succeeds, and how many bytes the `fwrite` call actually delivers (the OS may
accept fewer than requested, e.g. on a full disk). -/
structure Env where
  argc : Nat
  loadResult : Except Nat Unit
  decodeResult : Except Nat (Nat × Nat × List Nat)
  openOk : Bool
  writeCap : Nat

/-- Observable outcome of one run of the program: the process exit code and
the content of the output file (`none` when no file was created). -/
structure RunOutcome where
  exitCode : Nat
  file : Option (List Nat)
deriving DecidableEq, Repr

/-- `main` of egaify.cpp: usage check, load, decode, width check, quantize,
pack, open output, write.  The C code does not inspect the return value of
`fwrite`, so the file receives the first `writeCap` bytes of the planar buffer
and the run still exits 0. -/
def egaify_main (env : Env) : RunOutcome :=
  if env.argc < 3 then ⟨1, none⟩
  else
    match env.loadResult with
    | .error _ => ⟨1, none⟩
    | .ok _ =>
      match env.decodeResult with
      | .error _ => ⟨1, none⟩
      | .ok (width, height, image) =>
        if width % 8 ≠ 0 then ⟨1, none⟩
        else
          let indices := quantize image width height
          let planar := convert_to_planar indices width height
          let total_size := width * height / 8 * 4
          if !env.openOk then ⟨1, none⟩
          else ⟨0, some (planar.take (min env.writeCap total_size))⟩

/-- One byte of plane `p` at byte offset `j`, described directly: bit `7 - b`
is bit `p` of the masked index of pixel `8*j + b`. -/
def planeByte (indices : List Nat) (p j : Nat) : Nat :=
  (List.range 8).foldl
    (fun acc b =>
      if (((indices.getD (8 * j + b) 0 % 16) >>> p)) % 2 = 1 then
        acc ||| (1 <<< (7 - b))
      else acc)
    0

/-- All `plane_size` bytes of plane `p`. -/
def planeData (indices : List Nat) (plane_size p : Nat) : List Nat :=
  (List.range plane_size).map (planeByte indices p)

/-- Reading one pixel back out of the packed planes, inverse of the packer:
bit `7 - (x mod 8)` of byte `(y*width+x)/8` of plane `p` is bit `p` of the
reconstructed index. -/
def unpackPixel (out : List Nat) (plane_size width y x : Nat) : Nat :=
  (List.range 4).foldl
    (fun acc p =>
      acc +
        if (out.getD (p * plane_size + (y * width + x) / 8) 0).testBit (7 - x % 8)
        then 2 ^ p else 0)
    0

/-! ### The linear scan of the quantizer -/

/-- The running-best fold of `map_to_ega`, abstracted over the distance
function `d` and the initial best `B`. -/
def bestFold (d : Nat → Nat) (B n : Nat) : Nat × Nat :=
  (List.range n).foldl (fun st i => if d i < st.2 then (i, d i) else st) (0, B)

theorem map_to_ega_eq_bestFold (r g b : Nat) :
    map_to_ega r g b =
      (bestFold (fun i => colour_distance (r, g, b) (ega_palette.getD i (0, 0, 0)))
        4294967295 16).1 := rfl

theorem bestFold_fst_lt (d : Nat → Nat) (B n : Nat) (hn : 1 ≤ n) :
    (bestFold d B n).1 < n := by
  induction n with
  | zero => omega
  | succ n ih =>
      have hstep : bestFold d B (n + 1) =
          (if d n < (bestFold d B n).2 then (n, d n) else bestFold d B n) := by
        unfold bestFold
        rw [List.range_succ, List.foldl_append]
        rfl
      rcases Nat.eq_zero_or_pos n with hn0 | hn1
      · subst hn0
        rw [hstep]
        split_ifs <;> simp [bestFold]
      · rw [hstep]
        split_ifs
        · exact Nat.lt_succ_self n
        · exact Nat.lt_succ_of_lt (ih hn1)

/-- The result of map_to_ega is always a valid palette index. -/
theorem map_to_ega_lt (r g b : Nat) : map_to_ega r g b < 16 := by
  rw [map_to_ega_eq_bestFold]
  exact bestFold_fst_lt _ _ 16 (by omega)

/-- After scanning entries `0..n-1` (with the distance of entry 0 below the
initial best), the state holds the first index attaining the minimum distance
among them. -/
theorem bestFold_spec (d : Nat → Nat) (B : Nat) (hd : d 0 < B) (n : Nat) (hn : 1 ≤ n) :
    (bestFold d B n).2 = d (bestFold d B n).1 ∧ (bestFold d B n).1 < n ∧
    (∀ j, j < n → (bestFold d B n).2 ≤ d j) ∧
    (∀ j, j < (bestFold d B n).1 → (bestFold d B n).2 < d j) := by
  induction n, hn using Nat.le_induction with
  | base =>
      have h1 : bestFold d B 1 = (0, d 0) := by
        simp [bestFold, show List.range 1 = [0] from rfl, hd]
      rw [h1]
      refine ⟨rfl, Nat.one_pos, ?_, ?_⟩
      · intro j hj
        interval_cases j
        exact Nat.le_refl _
      · intro j hj
        exact absurd hj (Nat.not_lt_zero j)
  | succ n hn ih =>
      have hstep : bestFold d B (n + 1) =
          (if d n < (bestFold d B n).2 then (n, d n) else bestFold d B n) := by
        unfold bestFold
        rw [List.range_succ, List.foldl_append]
        rfl
      obtain ⟨ih1, ih2, ih3, ih4⟩ := ih
      by_cases h : d n < (bestFold d B n).2
      · rw [hstep, if_pos h]
        refine ⟨rfl, Nat.lt_succ_self n, ?_, ?_⟩
        · intro j hj
          rcases Nat.lt_succ_iff_lt_or_eq.mp hj with hj2 | hj2
          · exact Nat.le_of_lt (Nat.lt_of_lt_of_le h (ih3 j hj2))
          · subst hj2
            exact Nat.le_refl _
        · intro j hj
          exact Nat.lt_of_lt_of_le h (ih3 j hj)
      · rw [hstep, if_neg h]
        refine ⟨ih1, Nat.lt_succ_of_lt ih2, ?_, ih4⟩
        intro j hj
        rcases Nat.lt_succ_iff_lt_or_eq.mp hj with hj2 | hj2
        · exact ih3 j hj2
        · subst hj2
          exact Nat.le_of_not_lt h

theorem colour_distance_to_black (r g b : Nat) :
    colour_distance (r, g, b) (0, 0, 0) = r * r + g * g + b * b := by
  simp only [colour_distance, Nat.cast_zero, sub_zero]
  have hcast : ((r * r + g * g + b * b : Nat) : Int) =
      (r : Int) * (r : Int) + (g : Int) * (g : Int) + (b : Int) * (b : Int) := by
    push_cast
    ring
  rw [← hcast, Int.toNat_natCast]

/-- C1: `map_to_ega` returns the least index of a palette entry at minimal
squared Euclidean RGB distance from the input pixel; ties go to the lowest
index. -/
theorem map_to_ega_nearest (r g b : Nat) (hr : r ≤ 255) (hg : g ≤ 255) (hb : b ≤ 255) :
    map_to_ega r g b < 16 ∧
    (∀ j, j < 16 →
      colour_distance (r, g, b) (ega_palette.getD (map_to_ega r g b) (0, 0, 0)) ≤
        colour_distance (r, g, b) (ega_palette.getD j (0, 0, 0))) ∧
    (∀ j, j < map_to_ega r g b →
      colour_distance (r, g, b) (ega_palette.getD (map_to_ega r g b) (0, 0, 0)) <
        colour_distance (r, g, b) (ega_palette.getD j (0, 0, 0))) := by
  have hd : colour_distance (r, g, b) (ega_palette.getD 0 (0, 0, 0)) < 4294967295 := by
    have h0 : ega_palette.getD 0 (0, 0, 0) = (0, 0, 0) := rfl
    rw [h0, colour_distance_to_black]
    nlinarith
  obtain ⟨h1, h2, h3, h4⟩ :=
    bestFold_spec (fun i => colour_distance (r, g, b) (ega_palette.getD i (0, 0, 0)))
      4294967295 hd 16 (by omega)
  rw [map_to_ega_eq_bestFold]
  refine ⟨h2, ?_, ?_⟩
  · intro j hj
    have := h3 j hj
    rwa [h1] at this
  · intro j hj
    have := h4 j hj
    rwa [h1] at this

theorem map_to_ega_nearest_witness :
    map_to_ega 10 20 200 < 16 ∧
    (∀ j, j < 16 →
      colour_distance (10, 20, 200) (ega_palette.getD (map_to_ega 10 20 200) (0, 0, 0)) ≤
        colour_distance (10, 20, 200) (ega_palette.getD j (0, 0, 0))) ∧
    (∀ j, j < map_to_ega 10 20 200 →
      colour_distance (10, 20, 200) (ega_palette.getD (map_to_ega 10 20 200) (0, 0, 0)) <
        colour_distance (10, 20, 200) (ega_palette.getD j (0, 0, 0))) :=
  map_to_ega_nearest 10 20 200 (by omega) (by omega) (by omega)

/-- C5: each palette entry quantizes to its own index. -/
theorem map_to_ega_palette_exact :
    ∀ i : Fin 16,
      map_to_ega (ega_palette.getD i.val (0, 0, 0)).1
        (ega_palette.getD i.val (0, 0, 0)).2.1
        (ega_palette.getD i.val (0, 0, 0)).2.2 = i.val := by
  decide

/-! ### The planar packer -/

theorem setPixelBits_unfold (S v bit m : Nat) (buf : Nat → Nat) :
    setPixelBits S v bit m buf =
      planeStep S v bit m
        (planeStep S v bit m (planeStep S v bit m (planeStep S v bit m buf 0) 1) 2) 3 :=
  rfl

theorem planeStep_read (S v bit m : Nat) (buf : Nat → Nat) (q k : Nat)
    (hne : k ≠ q * S + m) :
    planeStep S v bit m buf q k = buf k := by
  unfold planeStep
  split_ifs
  · simp [bufSet, hne]
  · rfl

theorem planeStep_read_eq (S v bit m : Nat) (buf : Nat → Nat) (q : Nat) :
    planeStep S v bit m buf q (q * S + m) =
      buf (q * S + m) ||| (if (v >>> q) % 2 = 1 then 1 <<< bit else 0) := by
  unfold planeStep
  split_ifs
  · simp [bufSet]
  · simp [bufSet]

theorem setPixelBits_ne (S v bit m : Nat) (buf : Nat → Nat) (k : Nat)
    (hk : ∀ q, q < 4 → k ≠ q * S + m) :
    setPixelBits S v bit m buf k = buf k := by
  rw [setPixelBits_unfold,
    planeStep_read _ _ _ _ _ _ _ (hk 3 (by omega)),
    planeStep_read _ _ _ _ _ _ _ (hk 2 (by omega)),
    planeStep_read _ _ _ _ _ _ _ (hk 1 (by omega)),
    planeStep_read _ _ _ _ _ _ _ (hk 0 (by omega))]

theorem setPixelBits_eq (S v bit m p : Nat) (buf : Nat → Nat) (hS : 0 < S)
    (hp : p < 4) :
    setPixelBits S v bit m buf (p * S + m) =
      buf (p * S + m) ||| (if (v >>> p) % 2 = 1 then 1 <<< bit else 0) := by
  rw [setPixelBits_unfold]
  interval_cases p
  · rw [planeStep_read _ _ _ _ _ _ _ (by omega),
      planeStep_read _ _ _ _ _ _ _ (by omega),
      planeStep_read _ _ _ _ _ _ _ (by omega),
      planeStep_read_eq]
  · rw [planeStep_read _ _ _ _ _ _ _ (by omega),
      planeStep_read _ _ _ _ _ _ _ (by omega),
      planeStep_read_eq,
      planeStep_read _ _ _ _ _ _ _ (by omega)]
  · rw [planeStep_read _ _ _ _ _ _ _ (by omega),
      planeStep_read_eq,
      planeStep_read _ _ _ _ _ _ _ (by omega),
      planeStep_read _ _ _ _ _ _ _ (by omega)]
  · rw [planeStep_read_eq,
      planeStep_read _ _ _ _ _ _ _ (by omega),
      planeStep_read _ _ _ _ _ _ _ (by omega),
      planeStep_read _ _ _ _ _ _ _ (by omega)]

theorem plane_pos_inj (p q j m S : Nat) (hj : j < S) (hm : m < S)
    (h : p * S + j = q * S + m) : j = m ∧ p = q := by
  have h1 : (p * S + j) % S = j := by
    rw [Nat.mul_comm, Nat.mul_add_mod]
    exact Nat.mod_eq_of_lt hj
  have h2 : (q * S + m) % S = m := by
    rw [Nat.mul_comm, Nat.mul_add_mod]
    exact Nat.mod_eq_of_lt hm
  have hjm : j = m := by rw [← h1, h, h2]
  subst hjm
  have hpq : p * S = q * S := by omega
  have hS : 0 < S := Nat.lt_of_le_of_lt (Nat.zero_le j) hj
  exact ⟨rfl, Nat.eq_of_mul_eq_mul_right hS hpq⟩

/-- Flattening a row-major double loop into a single loop over linear pixel
positions. -/
theorem foldl_double_range {α : Type} (f : Nat → α → α) (h w : Nat) (init : α) :
    (List.range h).foldl
        (fun a y => (List.range w).foldl (fun a x => f (y * w + x) a) a) init =
      (List.range (h * w)).foldl (fun a n => f n a) init := by
  induction h generalizing init with
  | zero => simp
  | succ h ih =>
      rw [List.range_succ, List.foldl_append, ih]
      have hmul : (h + 1) * w = h * w + w := by ring
      rw [hmul, List.range_add, List.foldl_append, List.foldl_map]
      rfl

/-- When the width is a multiple of 8, the double pixel loop of the packer is
a single loop over linear pixel positions `n`, with `x mod 8 = n mod 8`. -/
theorem planarBuf_eq_flat (indices : List Nat) (w h : Nat) (hw : w % 8 = 0) :
    planarBuf indices w h =
      (List.range (h * w)).foldl
        (fun buf n =>
          setPixelBits (w * h / 8) (indices.getD n 0 % 16) (7 - n % 8) (n / 8) buf)
        (fun _ => 0) := by
  have hcong : ∀ y : Nat,
      (fun (buf : Nat → Nat) (x : Nat) =>
        setPixelBits (w * h / 8) (indices.getD (y * w + x) 0 % 16) (7 - x % 8)
          ((y * w + x) / 8) buf) =
      (fun (buf : Nat → Nat) (x : Nat) =>
        setPixelBits (w * h / 8) (indices.getD (y * w + x) 0 % 16)
          (7 - (y * w + x) % 8) ((y * w + x) / 8) buf) := by
    intro y
    funext buf x
    have h2 : (y * w) % 8 = 0 := by
      rw [Nat.mul_mod, hw]
      simp
    have h3 : (y * w + x) % 8 = x % 8 := by omega
    rw [h3]
  show (List.range h).foldl
      (fun buf y =>
        (List.range w).foldl
          (fun buf x =>
            setPixelBits (w * h / 8) (indices.getD (y * w + x) 0 % 16) (7 - x % 8)
              ((y * w + x) / 8) buf)
          buf)
      (fun _ => 0) = _
  simp only [hcong]
  exact foldl_double_range
    (fun n buf =>
      setPixelBits (w * h / 8) (indices.getD n 0 % 16) (7 - n % 8) (n / 8) buf)
    h w _

/-- The first `c` iterations of the byte formula `planeByte`. -/
def planeBytePartial (indices : List Nat) (p j c : Nat) : Nat :=
  (List.range c).foldl
    (fun acc b =>
      if (((indices.getD (8 * j + b) 0 % 16) >>> p)) % 2 = 1 then
        acc ||| (1 <<< (7 - b))
      else acc)
    0

theorem planeByte_eq_full (indices : List Nat) (p j : Nat) :
    planeByte indices p j = planeBytePartial indices p j 8 := rfl

theorem planeBytePartial_succ (indices : List Nat) (p j c : Nat) :
    planeBytePartial indices p j (c + 1) =
      planeBytePartial indices p j c |||
        (if (((indices.getD (8 * j + c) 0 % 16) >>> p)) % 2 = 1 then 1 <<< (7 - c)
         else 0) := by
  unfold planeBytePartial
  rw [List.range_succ, List.foldl_append]
  show (if (((indices.getD (8 * j + c) 0 % 16) >>> p)) % 2 = 1 then
      (List.range c).foldl _ 0 ||| (1 <<< (7 - c))
    else (List.range c).foldl _ 0) = _
  split_ifs
  · rfl
  · exact (Nat.or_zero _).symm

/-- Reading position `p * S + j` after the packer has processed the 8 pixels
of byte offset `m` (first `c` of them): byte `m` of plane `p` has accumulated
`planeBytePartial`, every other tracked byte is untouched. -/
theorem chunk_fold_read (indices : List Nat) (S m : Nat) (buf : Nat → Nat)
    (hm : m < S) (c : Nat) (hc : c ≤ 8) (p j : Nat) (hp : p < 4) (hj : j < S) :
    ((List.range c).foldl
        (fun buf b =>
          setPixelBits S (indices.getD (8 * m + b) 0 % 16) (7 - (8 * m + b) % 8)
            ((8 * m + b) / 8) buf)
        buf) (p * S + j) =
      (if j = m then buf (p * S + m) ||| planeBytePartial indices p m c
       else buf (p * S + j)) := by
  induction c with
  | zero =>
      simp only [List.range_zero, List.foldl_nil, planeBytePartial]
      by_cases hjm : j = m
      · subst hjm
        simp
      · rw [if_neg hjm]
  | succ c ih =>
      have hc8 : c < 8 := hc
      have hdiv : (8 * m + c) / 8 = m := by omega
      have hmod : (8 * m + c) % 8 = c := by omega
      rw [List.range_succ, List.foldl_append]
      show setPixelBits S (indices.getD (8 * m + c) 0 % 16) (7 - (8 * m + c) % 8)
          ((8 * m + c) / 8) _ (p * S + j) = _
      rw [hdiv, hmod]
      by_cases hjm : j = m
      · subst hjm
        rw [setPixelBits_eq _ _ _ _ _ _ (by omega) hp,
          ih (by omega), planeBytePartial_succ]
        simp [Nat.or_assoc]
      · have hne : ∀ q, q < 4 → p * S + j ≠ q * S + m := by
          intro q hq hcontra
          exact hjm (plane_pos_inj p q j m S hj hm hcontra).1
        rw [setPixelBits_ne _ _ _ _ _ _ hne, ih (by omega)]
        simp [hjm]

/-- After processing the first `8 * M` pixels starting from the zeroed
buffer, byte `j` of plane `p` holds `planeByte` for `j < M` and is still 0
otherwise. -/
theorem flat_fold_read (indices : List Nat) (S M : Nat) (hM : M ≤ S)
    (p j : Nat) (hp : p < 4) (hj : j < S) :
    ((List.range (8 * M)).foldl
        (fun buf n =>
          setPixelBits S (indices.getD n 0 % 16) (7 - n % 8) (n / 8) buf)
        (fun _ => 0)) (p * S + j) =
      (if j < M then planeByte indices p j else 0) := by
  induction M with
  | zero => simp
  | succ M ih =>
      have h8 : 8 * (M + 1) = 8 * M + 8 := by ring
      rw [h8, List.range_add, List.foldl_append, List.foldl_map]
      rw [chunk_fold_read indices S M _ (by omega) 8 le_rfl p j hp hj]
      by_cases hjM : j = M
      · subst hjM
        rw [if_pos rfl, ih (by omega), if_neg (by omega), if_pos (by omega),
          Nat.zero_or, planeByte_eq_full]
      · rw [if_neg hjM, ih (by omega)]
        by_cases hjM2 : j < M
        · rw [if_pos hjM2, if_pos (by omega)]
        · rw [if_neg hjM2, if_neg (by omega)]

/-- Characterization of the packed buffer: byte `j` of plane `p` is exactly
the directly-described `planeByte`. -/
theorem planarBuf_char (indices : List Nat) (w h : Nat) (hw : w % 8 = 0)
    (p j : Nat) (hp : p < 4) (hj : j < w * h / 8) :
    planarBuf indices w h (p * (w * h / 8) + j) = planeByte indices p j := by
  rw [planarBuf_eq_flat indices w h hw]
  have hdvd : 8 ∣ w * h := Dvd.dvd.mul_right (Nat.dvd_of_mod_eq_zero hw) h
  have h8S : 8 * (w * h / 8) = w * h := Nat.mul_div_cancel' hdvd
  have hhw : h * w = 8 * (w * h / 8) := by
    rw [h8S, Nat.mul_comm]
  rw [hhw, flat_fold_read indices (w * h / 8) (w * h / 8) le_rfl p j hp hj,
    if_pos hj]

/-- Element-level characterization of `convert_to_planar`. -/
theorem convert_to_planar_getD (indices : List Nat) (w h : Nat) (hw : w % 8 = 0)
    (p j : Nat) (hp : p < 4) (hj : j < w * h / 8) :
    (convert_to_planar indices w h).getD (p * (w * h / 8) + j) 0 =
      planeByte indices p j := by
  have hpS : p * (w * h / 8) ≤ 3 * (w * h / 8) :=
    Nat.mul_le_mul_right (w * h / 8) (by omega)
  have hk : p * (w * h / 8) + j < w * h / 8 * 4 := by omega
  unfold convert_to_planar
  rw [List.getD_eq_getElem _ _ (by simpa using hk)]
  rw [List.getElem_map, List.getElem_range]
  exact planarBuf_char indices w h hw p j hp hj

theorem planeBytePartial_testBit (indices : List Nat) (p j c k : Nat) :
    ((planeBytePartial indices p j c).testBit k = true ↔
      ∃ b, b < c ∧ 7 - b = k ∧
        (((indices.getD (8 * j + b) 0 % 16) >>> p)) % 2 = 1) := by
  induction c with
  | zero =>
      simp [planeBytePartial]
  | succ c ih =>
      rw [planeBytePartial_succ]
      by_cases hbit : (((indices.getD (8 * j + c) 0 % 16) >>> p)) % 2 = 1
      · rw [if_pos hbit, Nat.testBit_lor]
        have hpow : (1 <<< (7 - c)) = 2 ^ (7 - c) := by
          rw [Nat.shiftLeft_eq, Nat.one_mul]
        rw [hpow]
        constructor
        · intro hor
          rcases Bool.or_eq_true_iff.mp hor with h1 | h1
          · obtain ⟨b, hb, hbk, hbbit⟩ := ih.mp h1
            exact ⟨b, by omega, hbk, hbbit⟩
          · rw [Nat.testBit_two_pow] at h1
            exact ⟨c, by omega, of_decide_eq_true h1, hbit⟩
        · rintro ⟨b, hb, hbk, hbbit⟩
          rcases Nat.lt_succ_iff_lt_or_eq.mp hb with hb2 | hb2
          · exact Bool.or_eq_true_iff.mpr (Or.inl (ih.mpr ⟨b, hb2, hbk, hbbit⟩))
          · subst hb2
            refine Bool.or_eq_true_iff.mpr (Or.inr ?_)
            rw [Nat.testBit_two_pow]
            exact decide_eq_true hbk
      · rw [if_neg hbit, Nat.or_zero]
        rw [ih]
        constructor
        · rintro ⟨b, hb, hbk, hbbit⟩
          exact ⟨b, by omega, hbk, hbbit⟩
        · rintro ⟨b, hb, hbk, hbbit⟩
          rcases Nat.lt_succ_iff_lt_or_eq.mp hb with hb2 | hb2
          · exact ⟨b, hb2, hbk, hbbit⟩
          · subst hb2
            exact absurd hbbit hbit

/-- Reading bit `7 - b` of the plane byte recovers bit `p` of the masked
index of pixel `8*j + b`. -/
theorem planeByte_testBit (indices : List Nat) (p j b : Nat) (hb : b < 8) :
    ((planeByte indices p j).testBit (7 - b) = true ↔
      (((indices.getD (8 * j + b) 0 % 16) >>> p)) % 2 = 1) := by
  rw [planeByte_eq_full, planeBytePartial_testBit]
  constructor
  · rintro ⟨b2, hb2, heq, hbit⟩
    have hbb : b2 = b := by omega
    subst hbb
    exact hbit
  · intro hbit
    exact ⟨b, hb, rfl, hbit⟩

/-- C2: unpacking the four planes produced by `convert_to_planar` (bit
`7-(x mod 8)` of byte `(y*width+x)/8` of plane `p` as bit `p`) reconstructs
the index buffer exactly. -/
theorem planar_roundtrip (w h : Nat) (indices : List Nat) (hw : w % 8 = 0)
    (hlen : indices.length = w * h) (hval : ∀ v ∈ indices, v < 16)
    (y x : Nat) (hy : y < h) (hx : x < w) :
    unpackPixel (convert_to_planar indices w h) (w * h / 8) w y x =
      indices.getD (y * w + x) 0 := by
  have hcomm : h * w = w * h := Nat.mul_comm h w
  have hn : y * w + x < w * h := by
    have h1 : (y + 1) * w ≤ h * w := Nat.mul_le_mul_right w hy
    rw [Nat.succ_mul] at h1
    omega
  have hdvd : 8 ∣ w * h := Dvd.dvd.mul_right (Nat.dvd_of_mod_eq_zero hw) h
  have h8S : 8 * (w * h / 8) = w * h := Nat.mul_div_cancel' hdvd
  have hj : (y * w + x) / 8 < w * h / 8 := by omega
  have hx8 : (y * w + x) % 8 = x % 8 := by
    have h2 : (y * w) % 8 = 0 := by
      rw [Nat.mul_mod, hw]
      simp
    omega
  have hsplit : 8 * ((y * w + x) / 8) + (y * w + x) % 8 = y * w + x :=
    Nat.div_add_mod _ 8
  have hvlt : indices.getD (y * w + x) 0 < 16 := by
    rw [List.getD_eq_getElem _ _ (by omega)]
    exact hval _ (List.getElem_mem _)
  have hbit : ∀ p, p < 4 →
      ((convert_to_planar indices w h).getD
          (p * (w * h / 8) + (y * w + x) / 8) 0).testBit (7 - x % 8) =
        decide ((((indices.getD (y * w + x) 0 % 16) >>> p)) % 2 = 1) := by
    intro p hp
    rw [convert_to_planar_getD indices w h hw p _ hp hj]
    have hb8 : (y * w + x) % 8 < 8 := Nat.mod_lt _ (by omega)
    have hiff := planeByte_testBit indices p ((y * w + x) / 8) ((y * w + x) % 8) hb8
    rw [hsplit] at hiff
    rw [hx8] at hiff
    by_cases hP : (((indices.getD (y * w + x) 0 % 16) >>> p)) % 2 = 1
    · rw [hiff.mpr hP]
      exact (decide_eq_true hP).symm
    · have hf : (planeByte indices p ((y * w + x) / 8)).testBit (7 - x % 8) = false := by
        rcases Bool.eq_false_or_eq_true
            ((planeByte indices p ((y * w + x) / 8)).testBit (7 - x % 8)) with hh | hh
        · exact absurd (hiff.mp hh) hP
        · exact hh
      rw [hf]
      exact (decide_eq_false hP).symm
  have h0 := hbit 0 (by omega)
  have h1 := hbit 1 (by omega)
  have h2 := hbit 2 (by omega)
  have h3 := hbit 3 (by omega)
  simp only [unpackPixel, show List.range 4 = [0, 1, 2, 3] from rfl,
    List.foldl_cons, List.foldl_nil]
  rw [h0, h1, h2, h3]
  simp only [decide_eq_true_eq]
  generalize hgen : indices.getD (y * w + x) 0 = v
  rw [hgen] at hvlt
  interval_cases v <;> decide

theorem planarBuf_char_at (indices : List Nat) (w h : Nat) (hw : w % 8 = 0)
    (p k : Nat) (hp : p < 4) (hk1 : p * (w * h / 8) ≤ k)
    (hk2 : k < (p + 1) * (w * h / 8)) :
    planarBuf indices w h k = planeByte indices p (k - p * (w * h / 8)) := by
  have hk3 : k - p * (w * h / 8) < w * h / 8 := by
    rw [Nat.succ_mul] at hk2
    omega
  have hchar := planarBuf_char indices w h hw p (k - p * (w * h / 8)) hp hk3
  rw [show p * (w * h / 8) + (k - p * (w * h / 8)) = k from by omega] at hchar
  exact hchar

/-- The packed output is the bytes of plane 0, then plane 1, then plane 2,
then plane 3, with nothing in between. -/
theorem convert_to_planar_split (indices : List Nat) (w h : Nat) (hw : w % 8 = 0) :
    convert_to_planar indices w h =
      planeData indices (w * h / 8) 0 ++ planeData indices (w * h / 8) 1 ++
        planeData indices (w * h / 8) 2 ++ planeData indices (w * h / 8) 3 := by
  apply List.ext_getElem
  · simp [convert_to_planar, planeData]
    omega
  · intro k hk1 hk2
    have hS4 : k < w * h / 8 * 4 := by
      simpa [convert_to_planar] using hk1
    have hL : (convert_to_planar indices w h)[k] = planarBuf indices w h k := by
      simp [convert_to_planar]
    rw [hL]
    simp only [List.getElem_append, planeData, List.getElem_map, List.getElem_range,
      List.length_append, List.length_map, List.length_range]
    split_ifs with h1 h2 h3
    · rw [planarBuf_char_at indices w h hw 0 k (by omega) (by omega) (by omega)]
      congr 1
      omega
    · rw [planarBuf_char_at indices w h hw 1 k (by omega) (by omega) (by omega)]
      congr 1
      omega
    · rw [planarBuf_char_at indices w h hw 2 k (by omega) (by omega) (by omega)]
      congr 1
      omega
    · rw [planarBuf_char_at indices w h hw 3 k (by omega) (by omega) (by omega)]
      congr 1
      omega

theorem planeByte_congr (i1 i2 : List Nat) (p j : Nat)
    (hcong : ∀ b, b < 8 → i1.getD (8 * j + b) 0 % 16 = i2.getD (8 * j + b) 0 % 16) :
    planeByte i1 p j = planeByte i2 p j := by
  have e0 := hcong 0 (by omega)
  have e1 := hcong 1 (by omega)
  have e2 := hcong 2 (by omega)
  have e3 := hcong 3 (by omega)
  have e4 := hcong 4 (by omega)
  have e5 := hcong 5 (by omega)
  have e6 := hcong 6 (by omega)
  have e7 := hcong 7 (by omega)
  simp only [planeByte, show List.range 8 = [0, 1, 2, 3, 4, 5, 6, 7] from rfl,
    List.foldl_cons, List.foldl_nil, e0, e1, e2, e3, e4, e5, e6, e7]

/-- Congruence mod 16 of the index buffers gives identical planar output. -/
theorem convert_to_planar_congr (w h : Nat) (i1 i2 : List Nat) (hw : w % 8 = 0)
    (hcong : ∀ n, n < w * h → i1.getD n 0 % 16 = i2.getD n 0 % 16) :
    convert_to_planar i1 w h = convert_to_planar i2 w h := by
  have hdvd : 8 ∣ w * h := Dvd.dvd.mul_right (Nat.dvd_of_mod_eq_zero hw) h
  have h8S : 8 * (w * h / 8) = w * h := Nat.mul_div_cancel' hdvd
  unfold convert_to_planar
  apply List.map_congr_left
  intro k hk
  have hk2 := List.mem_range.mp hk
  have hp : k / (w * h / 8) < 4 ∨ w * h / 8 = 0 := by
    rcases Nat.eq_zero_or_pos (w * h / 8) with hS | hS
    · exact Or.inr hS
    · exact Or.inl (by
        rw [Nat.div_lt_iff_lt_mul hS]
        omega)
  rcases hp with hp | hS0
  · have hj : k % (w * h / 8) < w * h / 8 := by
      apply Nat.mod_lt
      omega
    have hk3 : k = k / (w * h / 8) * (w * h / 8) + k % (w * h / 8) := by
      rw [Nat.mul_comm]
      exact (Nat.div_add_mod k (w * h / 8)).symm
    rw [hk3, planarBuf_char i1 w h hw _ _ hp hj, planarBuf_char i2 w h hw _ _ hp hj]
    apply planeByte_congr
    intro b hb
    apply hcong
    omega
  · omega

theorem getD_map_mod16 (l : List Nat) (n : Nat) :
    (l.map (fun v => v % 16)).getD n 0 = l.getD n 0 % 16 := by
  by_cases hn : n < l.length
  · rw [List.getD_eq_getElem _ _ (by simpa using hn), List.getD_eq_getElem _ _ hn,
      List.getElem_map]
  · rw [List.getD_eq_default _ _ (by simpa using Nat.le_of_not_lt hn),
      List.getD_eq_default _ _ (Nat.le_of_not_lt hn)]

/-- C8: the packer depends only on the low 4 bits of each index. -/
theorem convert_to_planar_mod16 (w h : Nat) (i1 i2 : List Nat) (hw : w % 8 = 0)
    (hl1 : i1.length = w * h) (hl2 : i2.length = w * h)
    (hcong : ∀ n, n < w * h → i1.getD n 0 % 16 = i2.getD n 0 % 16) :
    convert_to_planar i1 w h = convert_to_planar i2 w h ∧
    ∀ indices : List Nat,
      convert_to_planar indices w h =
        convert_to_planar (indices.map (fun v => v % 16)) w h := by
  refine ⟨convert_to_planar_congr w h i1 i2 hw hcong, ?_⟩
  intro indices
  apply convert_to_planar_congr w h _ _ hw
  intro n hn
  rw [getD_map_mod16]
  omega

/-! ### The main driver -/

/-- C6: a decoded width that is not a multiple of 8 makes the run exit with
code 1 and create no output file (the quantize and pack stages are behind
this check and never reached). -/
theorem width_violation_rejected (env : Env) (w h : Nat) (img : List Nat)
    (hargc : 3 ≤ env.argc) (hload : env.loadResult = Except.ok ())
    (hdec : env.decodeResult = Except.ok (w, h, img)) (hw : w % 8 ≠ 0) :
    egaify_main env = ⟨1, none⟩ := by
  obtain ⟨argc, load, dec, op, cap⟩ := env
  simp only [Env.argc] at hargc
  simp only [Env.loadResult] at hload
  simp only [Env.decodeResult] at hdec
  subst hload
  subst hdec
  simp [egaify_main, hw, Nat.not_lt.mpr hargc]

theorem width_violation_rejected_witness :
    egaify_main ⟨3, Except.ok (), Except.ok (321, 1, List.replicate 1284 0),
        true, 99999⟩ = ⟨1, none⟩ :=
  width_violation_rejected _ 321 1 (List.replicate 1284 0) (Nat.le_refl 3) rfl rfl
    (by omega)

/-- C7 (bug in the code): `main` never inspects the value `fwrite` returns.
When the byte sink accepts only 2 of the 4 planar bytes of a valid 8-by-1
run, the program still exits with code 0 and leaves a truncated 2-byte
output file, with no diagnostic. -/
theorem fwrite_unchecked_truncation :
    egaify_main ⟨3, Except.ok (), Except.ok (8, 1,
        [0, 0, 0, 255, 255, 255, 255, 255, 0, 0, 0, 255, 255, 255, 255, 255,
         0, 0, 0, 255, 255, 255, 255, 255, 0, 0, 0, 255, 255, 255, 255, 255]),
        true, 2⟩ =
      ⟨0, some [0x55, 0x55]⟩ := by
  decide

/-- C9: alpha bytes are read but never consulted; images equal on R, G and B
produce identical runs. -/
theorem alpha_ignored (argc : Nat) (load : Except Nat Unit) (op : Bool)
    (cap : Nat) (w h : Nat) (img1 img2 : List Nat)
    (hrgb : ∀ n, n < w * h → ∀ c, c < 3 →
      img1.getD (4 * n + c) 0 = img2.getD (4 * n + c) 0) :
    egaify_main ⟨argc, load, Except.ok (w, h, img1), op, cap⟩ =
      egaify_main ⟨argc, load, Except.ok (w, h, img2), op, cap⟩ := by
  have hq : quantize img1 w h = quantize img2 w h := by
    unfold quantize
    apply List.map_congr_left
    intro n hn
    have hn2 := List.mem_range.mp hn
    have e0 := hrgb n hn2 0 (by omega)
    have e1 := hrgb n hn2 1 (by omega)
    have e2 := hrgb n hn2 2 (by omega)
    rw [Nat.add_zero] at e0
    rw [e0, e1, e2]
  simp only [egaify_main]
  rw [hq]

theorem alpha_ignored_witness :
    egaify_main ⟨3, Except.ok (), Except.ok (8, 1,
        [0, 0, 0, 255, 255, 255, 255, 255, 0, 0, 0, 255, 255, 255, 255, 255,
         0, 0, 0, 255, 255, 255, 255, 255, 0, 0, 0, 255, 255, 255, 255, 255]),
        true, 4⟩ =
      egaify_main ⟨3, Except.ok (), Except.ok (8, 1,
        [0, 0, 0, 0, 255, 255, 255, 7, 0, 0, 0, 99, 255, 255, 255, 1,
         0, 0, 0, 3, 255, 255, 255, 0, 0, 0, 0, 200, 255, 255, 255, 50]),
        true, 4⟩ :=
  alpha_ignored 3 (Except.ok ()) true 4 8 1 _ _ (by decide)

/-- C3: a successful run writes exactly `4 * (width*height/8)` bytes: plane
0, then the bytes of plane 1, then plane 2, then plane 3, with no separator
or length field between planes. -/
theorem output_size_and_layout (env : Env) (w h : Nat) (img : List Nat)
    (hargc : 3 ≤ env.argc) (hload : env.loadResult = Except.ok ())
    (hdec : env.decodeResult = Except.ok (w, h, img)) (hw : w % 8 = 0)
    (hopen : env.openOk = true) (hcap : w * h / 8 * 4 ≤ env.writeCap) :
    egaify_main env =
      ⟨0, some (planeData (quantize img w h) (w * h / 8) 0 ++
          planeData (quantize img w h) (w * h / 8) 1 ++
          planeData (quantize img w h) (w * h / 8) 2 ++
          planeData (quantize img w h) (w * h / 8) 3)⟩ ∧
    (convert_to_planar (quantize img w h) w h).length = 4 * (w * h / 8) := by
  obtain ⟨argc, load, dec, op, cap⟩ := env
  simp only [Env.argc] at hargc
  simp only [Env.loadResult] at hload
  simp only [Env.decodeResult] at hdec
  simp only [Env.openOk] at hopen
  simp only [Env.writeCap] at hcap
  subst hload
  subst hdec
  subst hopen
  have hlen : (convert_to_planar (quantize img w h) w h).length = w * h / 8 * 4 := by
    simp [convert_to_planar]
  constructor
  · simp only [egaify_main, Nat.not_lt.mpr hargc, if_false, hw]
    have hmin : min cap (w * h / 8 * 4) = w * h / 8 * 4 := Nat.min_eq_right hcap
    simp only [hmin]
    rw [List.take_of_length_le (Nat.le_of_eq hlen)]
    rw [convert_to_planar_split (quantize img w h) w h hw]
    simp
  · rw [hlen]
    omega

theorem output_size_and_layout_witness :
    egaify_main ⟨3, Except.ok (), Except.ok (8, 1,
        [0, 0, 0, 255, 255, 255, 255, 255, 0, 0, 0, 255, 255, 255, 255, 255,
         0, 0, 0, 255, 255, 255, 255, 255, 0, 0, 0, 255, 255, 255, 255, 255]),
        true, 4⟩ =
      ⟨0, some (planeData (quantize
          [0, 0, 0, 255, 255, 255, 255, 255, 0, 0, 0, 255, 255, 255, 255, 255,
           0, 0, 0, 255, 255, 255, 255, 255, 0, 0, 0, 255, 255, 255, 255, 255]
          8 1) (8 * 1 / 8) 0 ++
        planeData (quantize
          [0, 0, 0, 255, 255, 255, 255, 255, 0, 0, 0, 255, 255, 255, 255, 255,
           0, 0, 0, 255, 255, 255, 255, 255, 0, 0, 0, 255, 255, 255, 255, 255]
          8 1) (8 * 1 / 8) 1 ++
        planeData (quantize
          [0, 0, 0, 255, 255, 255, 255, 255, 0, 0, 0, 255, 255, 255, 255, 255,
           0, 0, 0, 255, 255, 255, 255, 255, 0, 0, 0, 255, 255, 255, 255, 255]
          8 1) (8 * 1 / 8) 2 ++
        planeData (quantize
          [0, 0, 0, 255, 255, 255, 255, 255, 0, 0, 0, 255, 255, 255, 255, 255,
           0, 0, 0, 255, 255, 255, 255, 255, 0, 0, 0, 255, 255, 255, 255, 255]
          8 1) (8 * 1 / 8) 3)⟩ ∧
    (convert_to_planar (quantize
        [0, 0, 0, 255, 255, 255, 255, 255, 0, 0, 0, 255, 255, 255, 255, 255,
         0, 0, 0, 255, 255, 255, 255, 255, 0, 0, 0, 255, 255, 255, 255, 255]
        8 1) 8 1).length = 4 * (8 * 1 / 8) :=
  output_size_and_layout _ 8 1 _ (Nat.le_refl 3) rfl rfl (by omega) rfl
    (Nat.le_refl 4)

/-- C4: the 8-by-1 black/white alternating image quantizes to indices
0,15,0,15,0,15,0,15 and packs to the four bytes 0x55 0x55 0x55 0x55. -/
theorem scenario_8x1 :
    quantize [0, 0, 0, 255, 255, 255, 255, 255, 0, 0, 0, 255, 255, 255, 255, 255,
        0, 0, 0, 255, 255, 255, 255, 255, 0, 0, 0, 255, 255, 255, 255, 255] 8 1 =
      [0, 15, 0, 15, 0, 15, 0, 15] ∧
    convert_to_planar [0, 15, 0, 15, 0, 15, 0, 15] 8 1 =
      [0x55, 0x55, 0x55, 0x55] :=
  ⟨by decide, by decide⟩

/-- C10: under the stated preconditions every access of the quantize loop and
of `convert_to_planar` is in bounds, and the quantizer always produces a
valid palette index. -/
theorem accesses_in_bounds (w h y x : Nat) (indices image : List Nat)
    (hw : w % 8 = 0) (hy : y < h) (hx : x < w)
    (hlen : indices.length = w * h) (hilen : image.length = 4 * (w * h)) :
    y * w + x < indices.length ∧
    (∀ c, c < 3 → 4 * (y * w + x) + c < image.length) ∧
    (∀ p, p < 4 →
      p * (w * h / 8) + (y * w + x) / 8 < 4 * (w * h / 8)) ∧
    (∀ r g b, map_to_ega r g b < 16) := by
  have hn : y * w + x < w * h := by
    have h1 : (y + 1) * w ≤ h * w := Nat.mul_le_mul_right w hy
    rw [Nat.succ_mul] at h1
    have hcomm : h * w = w * h := Nat.mul_comm h w
    omega
  have hdvd : 8 ∣ w * h := Dvd.dvd.mul_right (Nat.dvd_of_mod_eq_zero hw) h
  have h8S : 8 * (w * h / 8) = w * h := Nat.mul_div_cancel' hdvd
  refine ⟨by omega, fun c hc => by omega, ?_, fun r g b => map_to_ega_lt r g b⟩
  intro p hp
  have hj : (y * w + x) / 8 < w * h / 8 := by omega
  have hpS : p * (w * h / 8) ≤ 3 * (w * h / 8) :=
    Nat.mul_le_mul_right (w * h / 8) (by omega)
  omega

theorem accesses_in_bounds_witness :
    0 * 8 + 5 < (List.replicate 8 0 : List Nat).length ∧
    (∀ c, c < 3 → 4 * (0 * 8 + 5) + c < (List.replicate 32 0 : List Nat).length) ∧
    (∀ p, p < 4 →
      p * (8 * 1 / 8) + (0 * 8 + 5) / 8 < 4 * (8 * 1 / 8)) ∧
    (∀ r g b, map_to_ega r g b < 16) :=
  accesses_in_bounds 8 1 0 5 (List.replicate 8 0) (List.replicate 32 0)
    (by omega) (by omega) (by omega) (by simp) (by simp)

theorem planar_roundtrip_witness :
    unpackPixel (convert_to_planar [1, 2, 3, 4, 5, 6, 7, 9] 8 1) (8 * 1 / 8) 8 0 2 =
      [1, 2, 3, 4, 5, 6, 7, 9].getD (0 * 8 + 2) 0 :=
  planar_roundtrip 8 1 [1, 2, 3, 4, 5, 6, 7, 9] (by omega) (by decide)
    (by decide) 0 2 (by omega) (by omega)

theorem convert_to_planar_mod16_witness :
    convert_to_planar [0, 15, 0, 15, 0, 15, 0, 15] 8 1 =
        convert_to_planar [16, 31, 0, 15, 0, 15, 0, 15] 8 1 ∧
    ∀ indices : List Nat,
      convert_to_planar indices 8 1 =
        convert_to_planar (indices.map (fun v => v % 16)) 8 1 :=
  convert_to_planar_mod16 8 1 [0, 15, 0, 15, 0, 15, 0, 15]
    [16, 31, 0, 15, 0, 15, 0, 15] (by omega) (by decide) (by decide) (by decide)
